import Mathlib

/-!
Verification of the Group2Coin ledger engine against its specification.

We give a shallow embedding of the core ledger code
(`backend/blockchain/transaction.py`, `backend/blockchain/block.py`,
`backend/blockchain/blockchain.py`, `backend/utils/database.py`,
`backend/api/routes.py`) and prove/refute the specified properties.

Modelling conventions:
- Monetary amounts (Python floats) are modelled as rationals `ℚ`; the two
  balance computations we compare apply arithmetically identical operations,
  so the comparison is faithful to the float semantics as well.
- The cryptographic primitives (SHA-256 via `calculate_hash`, RSA-PSS via
  `verify_signature`) are abstracted as an arbitrary `CryptoModel`
  structure; the code under verification only composes them.
- Python `None` becomes `Option.none`; Python falsiness of an optional
  string (`not self.signature`) is `none` or the empty string.
- The unbounded proof-of-work loop is given explicit fuel; exhausted fuel
  models nontermination and is excluded by hypothesis where relevant.
- SQLite persistence is modelled as in-memory tables; `save_block` either
  commits all its writes or (on failure) rolls all of them back, matching
  the `try/commit/except/rollback` structure of `Database.save_block`.
-/

namespace Group2Coin

/-- A transaction record, mirroring `Transaction.__init__`
(`backend/blockchain/transaction.py`). -/
structure Transaction where
  sender : String
  recipient : String
  amount : ℚ
  public_key : Option String
  signature : Option String
  timestamp : ℚ
  nonce : String
deriving DecidableEq, Repr

/-- The canonical payload of a transaction: every field except the
signature, as built by `sign_transaction` / `is_valid` before calling
`sign_data` / `verify_signature`. -/
structure TxPayload where
  sender : String
  recipient : String
  amount : ℚ
  public_key : Option String
  timestamp : ℚ
  nonce : String
deriving DecidableEq, Repr

/-- The `transaction_data` dict built in `Transaction.sign_transaction`,
`Transaction.is_valid` and `Transaction.calculate_hash`. -/
def Transaction.payload (t : Transaction) : TxPayload :=
  { sender := t.sender, recipient := t.recipient, amount := t.amount,
    public_key := t.public_key, timestamp := t.timestamp, nonce := t.nonce }

/-- Abstraction of `backend/utils/crypto.py`: `calculate_hash` applied to a
string (used on public keys), `calculate_hash` applied to a serialized
transaction payload (used for `tx_hash`), `calculate_hash` applied to a
serialized block dict, and `verify_signature`.  `verify_signature` in the
source catches every exception and returns `False`, so it is a total
boolean function. -/
structure CryptoModel where
  hashStr : String → String
  hashTx : TxPayload → String
  hashBlock : ℕ → List Transaction → String → ℚ → ℕ → String
  verify : String → TxPayload → String → Bool

/-- Python falsiness of an optional string field: `not self.signature` is
true exactly when the field is `None` or the empty string. -/
def strFalsy : Option String → Bool
  | none => true
  | some s => s.isEmpty

/-- Model of `Transaction.is_valid` (`backend/blockchain/transaction.py`, lines
80–106). -/
def Transaction.is_valid (C : CryptoModel) (t : Transaction) : Bool :=
  if t.sender = "MINING_REWARD" then true
  else if strFalsy t.signature || strFalsy t.public_key then false
  else
    let pk := t.public_key.getD ""
    let calculated_address := (C.hashStr pk).take 40
    if calculated_address ≠ t.sender then false
    else C.verify pk t.payload (t.signature.getD "")

/-- A block, mirroring `Block.__init__` (`backend/blockchain/block.py`).
The `hash` field is the cached digest, recomputed by the constructor and
by mining. -/
structure Block where
  index : ℕ
  transactions : List Transaction
  previous_hash : String
  timestamp : ℚ
  nonce : ℕ
  hash : String
deriving DecidableEq, Repr

/-- Model of `Block.calculate_hash`: digest of (index, transactions, previous_hash,
timestamp, nonce). -/
def Block.calcHash (C : CryptoModel) (b : Block) : String :=
  C.hashBlock b.index b.transactions b.previous_hash b.timestamp b.nonce

/-- Model of `Block.__init__`: stores the fields and immediately computes the
cached hash from them. -/
def mkBlock (C : CryptoModel) (index : ℕ) (transactions : List Transaction)
    (previous_hash : String) (timestamp : ℚ) (nonce : ℕ) : Block :=
  { index := index, transactions := transactions,
    previous_hash := previous_hash, timestamp := timestamp, nonce := nonce,
    hash := C.hashBlock index transactions previous_hash timestamp nonce }

/-- The proof-of-work target test `self.hash[:difficulty] == '0'*difficulty`. -/
def meetsTarget (difficulty : ℕ) (h : String) : Bool :=
  h.take difficulty = String.mk (List.replicate difficulty '0')

/-- One iteration of the mining loop body: increment the nonce and
recompute the cached hash. -/
def mineStep (C : CryptoModel) (b : Block) : Block :=
  let n := b.nonce + 1
  { b with nonce := n,
           hash := C.hashBlock b.index b.transactions b.previous_hash b.timestamp n }

/-- Model of `Block.mine_block` (`backend/blockchain/block.py`, lines 45–57) with
explicit fuel: `none` models the unbounded `while` loop not terminating
within `fuel` iterations. -/
def Block.mine_block (C : CryptoModel) (difficulty : ℕ) : ℕ → Block → Option Block
  | fuel, b =>
    if meetsTarget difficulty b.hash then some b
    else match fuel with
      | 0 => none
      | fuel + 1 => Block.mine_block C difficulty fuel (mineStep C b)

/-! ## Persistence layer (`backend/utils/database.py`) -/

/-- The `accounts` table: an association list of (address, balance) rows.
SQLite row order is irrelevant to the queries the code performs; we keep
insertion order. -/
abbrev Accounts := List (String × ℚ)

/-- The statement `INSERT INTO accounts (address, balance) VALUES (addr, d) ON
CONFLICT(address) DO UPDATE SET balance = balance + d` — used (with
`d = -amount` for the sender and `d = amount` for the recipient) by
`Database.save_block`.  A missing row is created lazily holding exactly
the delta, i.e. a zero balance plus the delta. -/
def upsert : Accounts → String → ℚ → Accounts
  | [], addr, d => [(addr, d)]
  | (a, b) :: rest, addr, d =>
    if a = addr then (a, b + d) :: rest
    else (a, b) :: upsert rest addr d

/-- The per-transaction balance update in `Database.save_block` (lines
100–112): deduct from the sender unless the sender is `GENESIS` or
`MINING_REWARD`, then credit the recipient. -/
def applyTxAccounts (acc : Accounts) (t : Transaction) : Accounts :=
  let acc1 :=
    if t.sender ≠ "GENESIS" ∧ t.sender ≠ "MINING_REWARD" then
      upsert acc t.sender (-t.amount)
    else acc
  upsert acc1 t.recipient t.amount

/-- The persisted database state: `blocks` table (kept in block-index
order, as `get_chain` returns it) and `accounts` table.  The
`transactions` table only serves history queries and is not needed by the
claims. -/
structure DBState where
  blocks : List Block
  accounts : Accounts
deriving DecidableEq, Repr

/-- The committed effect of a successful `Database.save_block` (lines
66–119): append the block row and apply every transaction's balance
deltas.  On failure the `except` branch rolls the whole transaction back,
leaving the state untouched, so a failed save is modelled as the identity
on `DBState`. -/
def saveBlockDB (db : DBState) (b : Block) : DBState :=
  { blocks := db.blocks ++ [b],
    accounts := b.transactions.foldl applyTxAccounts db.accounts }

/-- The query `SELECT balance FROM accounts WHERE address = ?`: the row for an
address, if any. -/
def findBalance : Accounts → String → Option ℚ
  | [], _ => none
  | (a, b) :: rest, addr => if a = addr then some b else findBalance rest addr

/-- The balance an accounts table yields for an address: the stored row
if any, else `0.0`. -/
def balOf (acc : Accounts) (addr : String) : ℚ :=
  match findBalance acc addr with
  | some b => b
  | none => 0

/-- Model of `Database.get_balance` (lines 165–170): return the stored balance if
the address has a row, else `0.0`. -/
def getBalanceDB (db : DBState) (addr : String) : ℚ :=
  balOf db.accounts addr

/-! ## Ledger (`backend/blockchain/blockchain.py`) -/

/-- Blockchain state: database handle contents plus the in-memory fields
of `Blockchain.__init__`. -/
structure ChainState where
  db : DBState
  difficulty : ℕ
  mining_reward : ℚ
  pending : List Transaction
deriving DecidableEq, Repr

/-- Model of `Blockchain.get_balance`: simply forwards to `Database.get_balance`. -/
def ChainState.get_balance (s : ChainState) (addr : String) : ℚ :=
  getBalanceDB s.db addr

/-- The pending spend computed in `Blockchain.add_transaction` (lines
95–98): the loop over the pool accumulating the amounts of transactions
sharing the sender. -/
def pendingSpend (pool : List Transaction) (sender : String) : ℚ :=
  pool.foldl (fun a tx => if tx.sender = sender then a + tx.amount else a) 0

/-- Model of `Blockchain.add_transaction` (lines 82–105).  Returns the boolean the
method returns together with the (possibly updated) state. -/
def addTransaction (C : CryptoModel) (s : ChainState) (t : Transaction) :
    Bool × ChainState :=
  if ¬ t.is_valid C then (false, s)
  else
    let current_balance := s.get_balance t.sender
    let ps := pendingSpend s.pending t.sender
    if t.sender ≠ "MINING_REWARD" ∧ current_balance - ps < t.amount then
      (false, s)
    else
      (true, { s with pending := s.pending ++ [t] })

/-- Model of `Blockchain.get_latest_block`: reads the row with the largest index
and reconstructs a `Block` object from its stored fields.  The `Block`
constructor recomputes the cached hash from the fields, so the stored
`hash` column is replaced by the recomputed digest. -/
def getLatestBlock (C : CryptoModel) (s : ChainState) : Option Block :=
  match s.db.blocks.getLast? with
  | none => none
  | some b =>
    some (mkBlock C b.index b.transactions b.previous_hash b.timestamp b.nonce)

/-- The reward transaction created at the top of
`Blockchain.mine_pending_transactions`: sender `MINING_REWARD`, recipient
the miner's address, amount the ledger's configured reward, no public key
and no signature, fresh timestamp and nonce. -/
def rewardTx (miner : String) (amount : ℚ) (ts : ℚ) (nonce : String) :
    Transaction :=
  { sender := "MINING_REWARD", recipient := miner, amount := amount,
    public_key := none, signature := none, timestamp := ts, nonce := nonce }

/-- Model of `Blockchain.mine_pending_transactions` (lines 107–138).

Parameters beyond the Python ones make the ambient effects explicit:
`rewardTs`/`rewardNonce` are the fresh timestamp and uuid the
`Transaction` constructor draws for the reward transaction, `blockTs` the
fresh timestamp of the new block, `fuel` bounds the proof-of-work loop,
and `persistOk` tells whether `Database.save_block` commits or fails.
Returns the method's return value (`some block` on success, `none` when
the save failed) and the new state.  The empty-chain case cannot arise
after construction (genesis exists); it is mapped to a failure. -/
def minePendingTransactions (C : CryptoModel) (s : ChainState)
    (miner : String) (rewardTs : ℚ) (rewardNonce : String) (blockTs : ℚ)
    (fuel : ℕ) (persistOk : Bool) : Option Block × ChainState :=
  let reward := rewardTx miner s.mining_reward rewardTs rewardNonce
  let s1 := { s with pending := s.pending ++ [reward] }
  match getLatestBlock C s1 with
  | none => (none, s1)
  | some latest =>
    let newBlock := mkBlock C (latest.index + 1) s1.pending latest.hash blockTs 0
    match Block.mine_block C s.difficulty fuel newBlock with
    | none => (none, s1)
    | some mined =>
      if persistOk then
        (some mined, { s1 with db := saveBlockDB s1.db mined, pending := [] })
      else
        (none, s1)

/-- Model of `Blockchain.is_chain_valid` (lines 146–169): walk the rows returned
by `get_chain` from index 1 and compare each row's `previous_hash` column
with the previous row's stored `hash` column; return `False` at the first
mismatch.  No hash is recomputed and no transaction is validated. -/
def isChainValid : List Block → Bool
  | [] => true
  | [_] => true
  | a :: b :: rest =>
    if b.previous_hash ≠ a.hash then false
    else isChainValid (b :: rest)

/-- The genesis transaction built by `Blockchain.create_genesis_block`. -/
def genesisTx (ts : ℚ) (nonce : String) : Transaction :=
  { sender := "GENESIS", recipient := "GENESIS", amount := 0,
    public_key := some "GENESIS_KEY", signature := none,
    timestamp := ts, nonce := nonce }

/-- Model of `Blockchain.__init__` on an empty database: create and save the
genesis block (index 0, previous hash "0"). -/
def initState (C : CryptoModel) (difficulty : ℕ) (mining_reward : ℚ)
    (gTxTs : ℚ) (gNonce : String) (gBlockTs : ℚ) : ChainState :=
  let gBlock := mkBlock C 0 [genesisTx gTxTs gNonce] "0" gBlockTs 0
  { db := saveBlockDB { blocks := [], accounts := [] } gBlock,
    difficulty := difficulty, mining_reward := mining_reward,
    pending := [] }

/-- The operations a caller can perform against the ledger, with the
ambient nondeterminism (fresh timestamps, uuids, proof-of-work effort,
persistence success) recorded as operation data. -/
inductive Op where
  | submit (t : Transaction)
  | mine (miner : String) (rewardTs : ℚ) (rewardNonce : String)
      (blockTs : ℚ) (fuel : ℕ) (persistOk : Bool)
deriving Repr

/-- One ledger operation. -/
def step (C : CryptoModel) (s : ChainState) : Op → ChainState
  | .submit t => (addTransaction C s t).2
  | .mine m rts rn bts fuel ok =>
    (minePendingTransactions C s m rts rn bts fuel ok).2

/-- A run of the ledger from a freshly constructed state. -/
def run (C : CryptoModel) (s : ChainState) (ops : List Op) : ChainState :=
  ops.foldl (step C) s

/-- Modelled from the spec (§3 Account balances, §4.3 `getBalance`): the
replay balance, "folding every transaction in every block in chain order,
adding amount to the recipient and subtracting amount from the sender
unless the sender is GENESIS or MINING_REWARD".  This definition follows
the spec's words; the repository has no replay implementation (balances
are only read from the accounts table), and claim C2 compares the two. -/
def replayDelta (addr : String) (v : ℚ) (t : Transaction) : ℚ :=
  let v1 := if t.recipient = addr then v + t.amount else v
  if t.sender = addr ∧ t.sender ≠ "GENESIS" ∧ t.sender ≠ "MINING_REWARD" then
    v1 - t.amount
  else v1

/-- Modelled from the spec: full-chain replay balance (see `replayDelta`). -/
def replayBalance (chain : List Block) (addr : String) : ℚ :=
  chain.foldl (fun v b => b.transactions.foldl (replayDelta addr) v) 0

/-! ## HTTP routes (`backend/api/routes.py`) -/

/-- The `set_difficulty` route (`backend/api/routes.py`, lines 100–120).
The argument is the JSON body's `difficulty` field (`none` when absent);
`cur` is the current stored difficulty.  Returns the error message of the
400 response, if any, together with the stored difficulty after the call.
Python's `if not difficulty` also catches the falsy value `0`. -/
def setDifficulty (payload : Option ℤ) (cur : ℤ) : Option String × ℤ :=
  match payload with
  | none => (some "Difficulty value required", cur)
  | some d =>
    if d = 0 then (some "Difficulty value required", cur)
    else if d < 1 ∨ d > 10 then
      (some "Difficulty must be between 1 and 10", cur)
    else (none, d)

/-! ## A concrete crypto model for closed evaluations

The claims hold for every `CryptoModel`; the witnesses below instantiate
them at this small executable one. -/

/-- A tiny executable crypto model: the block digest exposes the nonce so
that proof-of-work and mutation detection are exercised, and every
signature verifies. -/
def testCrypto : CryptoModel :=
  { hashStr := fun s => s ++ s,
    hashTx := fun p => p.sender ++ p.recipient,
    hashBlock := fun i _ p _ n => "h" ++ toString i ++ p ++ toString n,
    verify := fun _ _ _ => true }

/-! ## Theorems -/

/-- C8: For every block whose hash already satisfies the difficulty
target (its first `difficulty` hex characters are all '0'), running
`mine_block` on it performs zero loop iterations and leaves every field
of the block (nonce, hash, timestamp, transactions, index, previous-hash)
unchanged: the loop guard fails immediately and the block is returned as
is, whatever fuel is available. -/
theorem mine_block_already_valid (C : CryptoModel) (difficulty fuel : ℕ)
    (b : Block) (h : meetsTarget difficulty b.hash = true) :
    Block.mine_block C difficulty fuel b = some b := by
  cases fuel <;> simp [Block.mine_block, h]

/-- Witness for `mine_block_already_valid` at a concrete block whose
stored hash has three leading zeros. -/
theorem mine_block_already_valid_witness :
    meetsTarget 3 (Block.hash ⟨1, [], "p", 0, 0, "000abc"⟩) = true ∧
      Block.mine_block testCrypto 3 5 ⟨1, [], "p", 0, 0, "000abc"⟩ =
        some ⟨1, [], "p", 0, 0, "000abc"⟩ :=
  ⟨by decide, mine_block_already_valid testCrypto 3 5 _ (by decide)⟩

/-- C9: every requested difficulty outside 1–10 (in particular 0 and 11)
is rejected by the `set_difficulty` route with a 400 validation error and
the stored difficulty is unchanged; every value within 1–10 is accepted
and stored. -/
theorem setDifficulty_bounds (d cur : ℤ) :
    ((d < 1 ∨ 10 < d) →
      (setDifficulty (some d) cur).1.isSome = true ∧
        (setDifficulty (some d) cur).2 = cur) ∧
    (1 ≤ d → d ≤ 10 → setDifficulty (some d) cur = (none, d)) := by
  constructor
  · intro h
    by_cases h0 : d = 0
    · simp [setDifficulty, h0]
    · have hlt : d < 1 ∨ d > 10 := h
      simp [setDifficulty, h0, hlt]
  · intro h1 h10
    have h0 : ¬ d = 0 := by omega
    have hlt : ¬ (d < 1 ∨ d > 10) := by omega
    simp [setDifficulty, h0, hlt]

/-- Witness for `setDifficulty_bounds` at the spec's concrete inputs 0,
11 (both rejected, stored value 4 kept) and at the in-range value 5
(accepted and stored). -/
theorem setDifficulty_bounds_witness :
    ((setDifficulty (some 0) 4).1.isSome = true ∧
      (setDifficulty (some 0) 4).2 = 4) ∧
    ((setDifficulty (some 11) 4).1.isSome = true ∧
      (setDifficulty (some 11) 4).2 = 4) ∧
    setDifficulty (some 5) 4 = (none, 5) :=
  ⟨(setDifficulty_bounds 0 4).1 (by decide),
   (setDifficulty_bounds 11 4).1 (by decide),
   (setDifficulty_bounds 5 4).2 (by decide) (by decide)⟩

/-- C6: a transaction whose validity check fails is rejected by
`add_transaction` with the state (pool and database) exactly as before
the call; more generally every rejected admission leaves the state
unchanged. -/
theorem addTransaction_reject_unchanged (C : CryptoModel) (s : ChainState)
    (t : Transaction) :
    (t.is_valid C = false → addTransaction C s t = (false, s)) ∧
    ((addTransaction C s t).1 = false → (addTransaction C s t).2 = s) := by
  constructor
  · intro h
    simp [addTransaction, h]
  · intro h
    by_cases hv : t.is_valid C = true
    · by_cases hrej : t.sender ≠ "MINING_REWARD" ∧
        s.get_balance t.sender - pendingSpend s.pending t.sender < t.amount
      · simp [addTransaction, hv, hrej]
      · simp [addTransaction, hv, hrej] at h
    · simp [addTransaction, hv]

/-- Witness for `addTransaction_reject_unchanged`: an unsigned
transaction from an ordinary address is rejected by a freshly
constructed ledger and the state is unchanged. -/
theorem addTransaction_reject_unchanged_witness :
    Transaction.is_valid testCrypto
      ⟨"alice", "bob", 3, some "pk", none, 0, "n1"⟩ = false ∧
    addTransaction testCrypto (initState testCrypto 4 50 0 "g" 0)
        ⟨"alice", "bob", 3, some "pk", none, 0, "n1"⟩ =
      (false, initState testCrypto 4 50 0 "g" 0) :=
  ⟨by decide,
   (addTransaction_reject_unchanged testCrypto
     (initState testCrypto 4 50 0 "g" 0) _).1 (by decide)⟩

/-- C7: `is_valid` returns true unconditionally when the sender is
`MINING_REWARD`; otherwise it fails closed (returns false) when the
signature or the public key is absent (missing or empty, the Python
falsiness test), returns false when the hash of the public key truncated
to 40 characters differs from the declared sender, and otherwise returns
exactly the result of verifying the signature against the canonical
(signature-free) payload.  The function is total — the underlying
`verify_signature` catches every exception — so it never throws. -/
theorem is_valid_cases (C : CryptoModel) (t : Transaction) :
    (t.sender = "MINING_REWARD" → t.is_valid C = true) ∧
    (t.sender ≠ "MINING_REWARD" →
      ((strFalsy t.signature = true ∨ strFalsy t.public_key = true) →
        t.is_valid C = false) ∧
      (∀ sig pk, t.signature = some sig → sig.isEmpty = false →
        t.public_key = some pk → pk.isEmpty = false →
        (((C.hashStr pk).take 40 ≠ t.sender → t.is_valid C = false) ∧
         ((C.hashStr pk).take 40 = t.sender →
           t.is_valid C = C.verify pk t.payload sig)))) := by
  refine ⟨fun h => ?_, fun h => ⟨fun habs => ?_, ?_⟩⟩
  · simp [Transaction.is_valid, h]
  · have : (strFalsy t.signature || strFalsy t.public_key) = true := by
      rcases habs with h1 | h1 <;> simp [h1]
    simp [Transaction.is_valid, h, this]
  · intro sig pk hsig hsigne hpk hpkne
    have habs : (strFalsy t.signature || strFalsy t.public_key) = false := by
      simp [hsig, hpk, strFalsy, hsigne, hpkne]
    refine ⟨fun hne => ?_, fun heq => ?_⟩
    · unfold Transaction.is_valid
      rw [if_neg h, habs]
      simp [hpk, hne]
    · unfold Transaction.is_valid
      rw [if_neg h, habs, hpk, hsig]
      simp [heq]

set_option maxRecDepth 4000 in
/-- Witness for `is_valid_cases` at four concrete transactions: a mining
reward (valid), an unsigned ordinary transaction (invalid), a signed
transaction whose public key hashes to a different address (invalid),
and a signed transaction with a matching address (result delegated to
signature verification, true under `testCrypto`). -/
theorem is_valid_cases_witness :
    Transaction.is_valid testCrypto
        ⟨"MINING_REWARD", "m", 50, none, none, 0, "n0"⟩ = true ∧
    Transaction.is_valid testCrypto
        ⟨"alice", "bob", 3, some "pk", none, 0, "n1"⟩ = false ∧
    Transaction.is_valid testCrypto
        ⟨"zz", "bob", 3, some "pk", some "sg", 0, "n2"⟩ = false ∧
    Transaction.is_valid testCrypto
        ⟨"pkpk", "bob", 3, some "pk", some "sg", 0, "n3"⟩ =
      testCrypto.verify "pk"
        (Transaction.payload ⟨"pkpk", "bob", 3, some "pk", some "sg", 0, "n3"⟩)
        "sg" :=
  ⟨(is_valid_cases testCrypto _).1 (by decide),
   ((is_valid_cases testCrypto
       ⟨"alice", "bob", 3, some "pk", none, 0, "n1"⟩).2 (by decide)).1
     (by decide),
   (((is_valid_cases testCrypto
        ⟨"zz", "bob", 3, some "pk", some "sg", 0, "n2"⟩).2 (by decide)).2
      "sg" "pk" rfl (by decide) rfl (by decide)).1 (by decide),
   (((is_valid_cases testCrypto
        ⟨"pkpk", "bob", 3, some "pk", some "sg", 0, "n3"⟩).2 (by decide)).2
      "sg" "pk" rfl (by decide) rfl (by decide)).2 (by decide)⟩

/-- C1 counterexample: `is_chain_valid` does not recompute block hashes
(and does not validate transactions), so an out-of-band mutation of a
stored block's nonce goes undetected.  Concretely: a two-block chain in
which block 1's stored nonce was mutated from 0 to 7, so that its stored
hash no longer equals its recomputed hash, is still reported valid —
refuting both the claimed stored-vs-recomputed hash check and the claimed
detection of any nonce mutation. -/
theorem isChainValid_misses_nonce_mutation :
    isChainValid
        [mkBlock testCrypto 0 [] "0" 0 0,
         { mkBlock testCrypto 1 [] (mkBlock testCrypto 0 [] "0" 0 0).hash 0 0
             with nonce := 7 }] = true ∧
      Block.hash
          { mkBlock testCrypto 1 [] (mkBlock testCrypto 0 [] "0" 0 0).hash 0 0
              with nonce := 7 } ≠
        Block.calcHash testCrypto
          { mkBlock testCrypto 1 [] (mkBlock testCrypto 0 [] "0" 0 0).hash 0 0
              with nonce := 7 } := by
  constructor <;> decide

/-- C1 (amended): `is_chain_valid` walks the chain from index 1 checking
only that each block's previous-hash field equals the previous block's
stored hash; it returns true if and only if every adjacent link matches
(short-circuiting at the first broken link).  It does not recompute any
hash and does not check any transaction's validity, so mutations of a
stored nonce (or of the tip block's hash) are not detected; only
mutations that break a stored previous-hash/hash link are. -/
theorem isChainValid_iff_links (l : List Block) :
    isChainValid l = true ↔
      l.Chain' (fun a b => b.previous_hash = a.hash) := by
  induction l with
  | nil => simp [isChainValid]
  | cons a t ih =>
    cases t with
    | nil => simp [isChainValid]
    | cons b rest =>
      by_cases h : b.previous_hash = a.hash
      · simp [isChainValid, h, List.chain'_cons, ih]
      · simp [isChainValid, h, List.chain'_cons]

/-- C3: persistence atomicity of mining.  If `save_block` fails, the
operation returns a failure (`None`), the database — chain tip included —
is untouched, and the pool is not cleared (it holds the previous pending
transactions, plus the reward transaction that the method had already
appended before mining).  Conversely the method returns a block only when
persistence succeeded, and then the pool is cleared and exactly that
block is appended at the tip. -/
theorem mine_persistence_atomicity (C : CryptoModel) (s : ChainState)
    (miner : String) (rts : ℚ) (rn : String) (bts : ℚ) (fuel : ℕ)
    (persistOk : Bool) :
    (persistOk = false →
      (minePendingTransactions C s miner rts rn bts fuel persistOk).1 = none ∧
      (minePendingTransactions C s miner rts rn bts fuel persistOk).2.db = s.db ∧
      (minePendingTransactions C s miner rts rn bts fuel persistOk).2.pending =
        s.pending ++ [rewardTx miner s.mining_reward rts rn]) ∧
    (∀ blk,
      (minePendingTransactions C s miner rts rn bts fuel persistOk).1 = some blk →
      persistOk = true ∧
      (minePendingTransactions C s miner rts rn bts fuel persistOk).2.pending = [] ∧
      (minePendingTransactions C s miner rts rn bts fuel persistOk).2.db.blocks =
        s.db.blocks ++ [blk]) := by
  constructor
  · rintro rfl
    rcases hgl : getLatestBlock C
        { s with pending := s.pending ++ [rewardTx miner s.mining_reward rts rn] }
      with _ | latest
    · simp [minePendingTransactions, hgl]
    · rcases hmb : Block.mine_block C s.difficulty fuel
          (mkBlock C (latest.index + 1)
            (s.pending ++ [rewardTx miner s.mining_reward rts rn]) latest.hash
            bts 0)
        with _ | mined
      · simp [minePendingTransactions, hgl, hmb]
      · simp [minePendingTransactions, hgl, hmb]
  · intro blk hblk
    rcases hgl : getLatestBlock C
        { s with pending := s.pending ++ [rewardTx miner s.mining_reward rts rn] }
      with _ | latest
    · simp [minePendingTransactions, hgl] at hblk
    · rcases hmb : Block.mine_block C s.difficulty fuel
          (mkBlock C (latest.index + 1)
            (s.pending ++ [rewardTx miner s.mining_reward rts rn]) latest.hash
            bts 0)
        with _ | mined
      · simp [minePendingTransactions, hgl, hmb] at hblk
      · cases persistOk
        · simp [minePendingTransactions, hgl, hmb] at hblk
        · simp only [minePendingTransactions, hgl, hmb] at hblk ⊢
          simp only [if_true] at hblk ⊢
          simp at hblk
          subst hblk
          simp [saveBlockDB]

/-- A concrete freshly constructed ledger, difficulty 0 (so proof of work
succeeds at once) and reward 50, for closed evaluations. -/
def sampleState : ChainState := initState testCrypto 0 50 0 "g" 0

/-- Witness for `mine_persistence_atomicity`: on `sampleState`, a mine
call whose persistence fails returns `None`, keeps the database, and
leaves the pool holding the reward transaction; one whose persistence
succeeds returns the mined block, clears the pool, and appends the block. -/
theorem mine_persistence_atomicity_witness :
    ((minePendingTransactions testCrypto sampleState "m" 0 "rn" 0 0 false).1 =
        none ∧
      (minePendingTransactions testCrypto sampleState "m" 0 "rn" 0 0 false).2.db =
        sampleState.db ∧
      (minePendingTransactions testCrypto sampleState "m" 0 "rn" 0 0 false).2.pending =
        sampleState.pending ++ [rewardTx "m" 50 0 "rn"]) ∧
    ((minePendingTransactions testCrypto sampleState "m" 0 "rn" 0 0 true).1 =
        some (mkBlock testCrypto 1 [rewardTx "m" 50 0 "rn"] "h000" 0 0) ∧
      (minePendingTransactions testCrypto sampleState "m" 0 "rn" 0 0 true).2.pending =
          [] ∧
        (minePendingTransactions testCrypto sampleState "m" 0 "rn" 0 0 true).2.db.blocks =
          sampleState.db.blocks ++
            [mkBlock testCrypto 1 [rewardTx "m" 50 0 "rn"] "h000" 0 0]) :=
  ⟨(mine_persistence_atomicity testCrypto sampleState "m" 0 "rn" 0 0 false).1
      rfl,
   by decide,
   ((mine_persistence_atomicity testCrypto sampleState "m" 0 "rn" 0 0 true).2
       _ (by decide)).2⟩

/-- Appending a transaction to the pool adds its amount to the pending
spend of its sender and leaves every other sender's pending spend
unchanged. -/
theorem pendingSpend_append (p : List Transaction) (t : Transaction)
    (a : String) :
    pendingSpend (p ++ [t]) a =
      pendingSpend p a + if t.sender = a then t.amount else 0 := by
  unfold pendingSpend
  rw [List.foldl_append]
  by_cases h : t.sender = a <;> simp [h]

/-- A successful admission appends the transaction at the end of the
pool and changes nothing else. -/
theorem addTransaction_true_snd (C : CryptoModel) (s : ChainState)
    (t : Transaction) (h : (addTransaction C s t).1 = true) :
    (addTransaction C s t).2 = { s with pending := s.pending ++ [t] } := by
  by_cases hv : t.is_valid C = true
  · by_cases hrej : t.sender ≠ "MINING_REWARD" ∧
      s.get_balance t.sender - pendingSpend s.pending t.sender < t.amount
    · simp [addTransaction, hv, hrej] at h
    · simp [addTransaction, hv, hrej]
  · simp [addTransaction, hv] at h

/-- Admission criterion for an ordinary (non-reward) valid transaction:
admitted exactly when the confirmed balance minus the sender's pending
spend covers the amount. -/
theorem addTransaction_admits_iff (C : CryptoModel) (s : ChainState)
    (t : Transaction) (hv : t.is_valid C = true)
    (hmr : t.sender ≠ "MINING_REWARD") :
    (addTransaction C s t).1 = true ↔
      t.amount ≤ s.get_balance t.sender - pendingSpend s.pending t.sender := by
  unfold addTransaction
  simp only [hv, Bool.true_eq_false, not_true_eq_false, if_false]
  by_cases hlt :
    s.get_balance t.sender - pendingSpend s.pending t.sender < t.amount
  · rw [if_pos ⟨hmr, hlt⟩]
    simp
    linarith
  · rw [if_neg (fun hc => hlt hc.2)]
    simp
    linarith [not_lt.mp hlt]

/-- A valid transaction whose sender is `MINING_REWARD` bypasses the
balance check and is always admitted. -/
theorem addTransaction_reward_admitted (C : CryptoModel) (s : ChainState)
    (t : Transaction) (hv : t.is_valid C = true)
    (hmr : t.sender = "MINING_REWARD") :
    (addTransaction C s t).1 = true := by
  unfold addTransaction
  simp [hv, hmr]

/-- C4: for a valid transaction with an ordinary sender,
`add_transaction` admits it if and only if the sender's confirmed balance
minus the pending spend already queued for that sender covers the amount;
valid transactions with sender `MINING_REWARD` bypass the balance check;
and of two individually affordable transactions from the same sender
whose total exceeds the confirmed balance (with no prior pending spend),
the first is admitted and the second rejected. -/
theorem addTransaction_balance_policy (C : CryptoModel) (s : ChainState)
    (t : Transaction) :
    (t.is_valid C = true → t.sender ≠ "MINING_REWARD" →
      ((addTransaction C s t).1 = true ↔
        t.amount ≤ s.get_balance t.sender - pendingSpend s.pending t.sender)) ∧
    (t.is_valid C = true → t.sender = "MINING_REWARD" →
      (addTransaction C s t).1 = true) ∧
    (∀ t1 t2 : Transaction, t1.is_valid C = true → t2.is_valid C = true →
      t1.sender ≠ "MINING_REWARD" → t2.sender = t1.sender →
      pendingSpend s.pending t1.sender = 0 →
      t1.amount ≤ s.get_balance t1.sender →
      t2.amount ≤ s.get_balance t1.sender →
      s.get_balance t1.sender < t1.amount + t2.amount →
      (addTransaction C s t1).1 = true ∧
        (addTransaction C (addTransaction C s t1).2 t2).1 = false) := by
  refine ⟨fun hv hmr => addTransaction_admits_iff C s t hv hmr,
    fun hv hmr => addTransaction_reward_admitted C s t hv hmr,
    fun t1 t2 hv1 hv2 hmr1 hss hps0 h1 h2 hsum => ?_⟩
  have e1 : (addTransaction C s t1).1 = true := by
    rw [addTransaction_admits_iff C s t1 hv1 hmr1, hps0]
    linarith
  refine ⟨e1, ?_⟩
  have hs' := addTransaction_true_snd C s t1 e1
  rw [hs']
  have hmr2 : t2.sender ≠ "MINING_REWARD" := by rw [hss]; exact hmr1
  have hiff := addTransaction_admits_iff C
    { s with pending := s.pending ++ [t1] } t2 hv2 hmr2
  have hbal : ChainState.get_balance
      { s with pending := s.pending ++ [t1] } t2.sender =
      s.get_balance t1.sender := by
    rw [hss]; rfl
  have hps : pendingSpend (s.pending ++ [t1]) t2.sender = t1.amount := by
    rw [hss, pendingSpend_append, hps0, if_pos rfl]
    ring
  have hnot : ¬ ((addTransaction C { s with pending := s.pending ++ [t1] }
      t2).1 = true) := by
    rw [hiff, hbal, hps]
    intro hle
    linarith
  cases hres : (addTransaction C { s with pending := s.pending ++ [t1] }
      t2).1
  · rfl
  · exact absurd hres hnot

set_option maxRecDepth 100000 in
/-- Witness for `addTransaction_balance_policy`: after mining reward 50
to address `AA` on `sampleState`, two signed transfers of 30 from `AA`
are each individually affordable but together overspend; the first is
admitted, the second rejected. -/
theorem addTransaction_balance_policy_witness :
    (addTransaction testCrypto
        (minePendingTransactions testCrypto sampleState "AA" 0 "r1" 0 0
            true).2
        ⟨"AA", "B", 30, some "A", some "s", 0, "x1"⟩).1 = true ∧
    (addTransaction testCrypto
        (addTransaction testCrypto
          (minePendingTransactions testCrypto sampleState "AA" 0 "r1" 0 0
              true).2
          ⟨"AA", "B", 30, some "A", some "s", 0, "x1"⟩).2
        ⟨"AA", "B", 30, some "A", some "s", 0, "x2"⟩).1 = false :=
  (addTransaction_balance_policy testCrypto
      (minePendingTransactions testCrypto sampleState "AA" 0 "r1" 0 0 true).2
      ⟨"AA", "B", 30, some "A", some "s", 0, "x1"⟩).2.2
    ⟨"AA", "B", 30, some "A", some "s", 0, "x1"⟩
    ⟨"AA", "B", 30, some "A", some "s", 0, "x2"⟩
    (by decide) (by decide) (by decide) (by decide) (by decide) (by decide)
    (by decide)
    (by norm_num [minePendingTransactions, sampleState, initState,
      getLatestBlock, mkBlock, Block.mine_block, meetsTarget, saveBlockDB,
      applyTxAccounts, upsert, balOf, findBalance, getBalanceDB,
      ChainState.get_balance, genesisTx, rewardTx, testCrypto]; decide)

/-- The mining loop only touches the nonce and the cached hash: the
transactions, index, previous hash and timestamp of the block it returns
are those of the block it started from. -/
theorem mine_block_shape (C : CryptoModel) (d : ℕ) :
    ∀ (fuel : ℕ) (b b' : Block), Block.mine_block C d fuel b = some b' →
      b'.transactions = b.transactions ∧ b'.index = b.index ∧
        b'.previous_hash = b.previous_hash ∧ b'.timestamp = b.timestamp := by
  intro fuel
  induction fuel with
  | zero =>
    intro b b' h
    by_cases hm : meetsTarget d b.hash = true
    · simp [Block.mine_block, hm] at h
      simp [h]
    · simp [Block.mine_block, hm] at h
  | succ n ih =>
    intro b b' h
    by_cases hm : meetsTarget d b.hash = true
    · simp [Block.mine_block, hm] at h
      simp [h]
    · simp [Block.mine_block, hm] at h
      simpa [mineStep] using ih _ _ h

/-- When `mine_pending_transactions` succeeds, the returned block's
transaction list is exactly the pool at call time followed by the reward
transaction. -/
theorem mine_success_transactions (C : CryptoModel) (s : ChainState)
    (miner : String) (rts : ℚ) (rn : String) (bts : ℚ) (fuel : ℕ)
    (blk : Block)
    (h : (minePendingTransactions C s miner rts rn bts fuel true).1 =
      some blk) :
    blk.transactions =
      s.pending ++ [rewardTx miner s.mining_reward rts rn] := by
  rcases hgl : getLatestBlock C
      { s with pending := s.pending ++ [rewardTx miner s.mining_reward rts rn] }
    with _ | latest
  · simp [minePendingTransactions, hgl] at h
  · rcases hmb : Block.mine_block C s.difficulty fuel
        (mkBlock C (latest.index + 1)
          (s.pending ++ [rewardTx miner s.mining_reward rts rn]) latest.hash
          bts 0)
      with _ | mined
    · simp [minePendingTransactions, hgl, hmb] at h
    · simp [minePendingTransactions, hgl, hmb] at h
      subst h
      simpa [mkBlock] using (mine_block_shape C s.difficulty fuel _ _ hmb).1

/-- C5: a valid, affordable transaction admitted by `add_transaction`
appears exactly once in the next successfully mined block; the block's
transaction list is the pool in submission order followed by the reward
transaction (sender `MINING_REWARD`, amount the configured reward,
recipient the miner), which is its last element. -/
theorem admitted_tx_mined_once_in_order (C : CryptoModel) (s : ChainState)
    (t : Transaction) (miner : String) (rts : ℚ) (rn : String) (bts : ℚ)
    (fuel : ℕ) (blk : Block)
    (hsender : t.sender ≠ "MINING_REWARD")
    (hnotin : t ∉ s.pending)
    (hadd : (addTransaction C s t).1 = true)
    (hmine : (minePendingTransactions C (addTransaction C s t).2 miner rts rn
        bts fuel true).1 = some blk) :
    blk.transactions =
      (s.pending ++ [t]) ++ [rewardTx miner s.mining_reward rts rn] ∧
    blk.transactions.count t = 1 ∧
    blk.transactions.getLast? =
      some (rewardTx miner s.mining_reward rts rn) := by
  rw [addTransaction_true_snd C s t hadd] at hmine
  have htx := mine_success_transactions C _ miner rts rn bts fuel blk hmine
  have hne : t ≠ rewardTx miner s.mining_reward rts rn := by
    intro he
    exact hsender (by rw [he]; rfl)
  refine ⟨htx, ?_, ?_⟩
  · rw [htx]
    rw [List.count_append, List.count_append]
    rw [List.count_eq_zero.mpr hnotin]
    simp [List.count_cons, hne]
  · rw [htx]
    simp

set_option maxRecDepth 100000 in
/-- Witness for `admitted_tx_mined_once_in_order`: on `sampleState`, a
signed zero-amount transfer from `AA` is admitted and the next mined
block holds exactly the pool followed by the reward transaction. -/
theorem admitted_tx_mined_once_in_order_witness :
    (mkBlock testCrypto 1
          [⟨"AA", "B", 0, some "A", some "s", 0, "x1"⟩,
           rewardTx "M" 50 0 "r2"] "h000" 0 0).transactions =
      (sampleState.pending ++ [⟨"AA", "B", 0, some "A", some "s", 0, "x1"⟩]) ++
        [rewardTx "M" sampleState.mining_reward 0 "r2"] ∧
    (mkBlock testCrypto 1
          [⟨"AA", "B", 0, some "A", some "s", 0, "x1"⟩,
           rewardTx "M" 50 0 "r2"] "h000" 0 0).transactions.count
        ⟨"AA", "B", 0, some "A", some "s", 0, "x1"⟩ = 1 ∧
    (mkBlock testCrypto 1
          [⟨"AA", "B", 0, some "A", some "s", 0, "x1"⟩,
           rewardTx "M" 50 0 "r2"] "h000" 0 0).transactions.getLast? =
      some (rewardTx "M" sampleState.mining_reward 0 "r2") := by
  have hadd : (addTransaction testCrypto sampleState
      ⟨"AA", "B", 0, some "A", some "s", 0, "x1"⟩).1 = true := by
    norm_num [addTransaction, Transaction.is_valid, strFalsy, testCrypto,
      ChainState.get_balance, getBalanceDB, balOf, findBalance, pendingSpend,
      sampleState, initState, saveBlockDB, applyTxAccounts, upsert, genesisTx,
      mkBlock]
    decide
  exact admitted_tx_mined_once_in_order testCrypto sampleState
    ⟨"AA", "B", 0, some "A", some "s", 0, "x1"⟩ "M" 0 "r2" 0 0
    (mkBlock testCrypto 1
      [⟨"AA", "B", 0, some "A", some "s", 0, "x1"⟩, rewardTx "M" 50 0 "r2"]
      "h000" 0 0)
    (by decide) (by decide) hadd
    (by rw [addTransaction_true_snd testCrypto sampleState _ hadd]; decide)

/-! ## Incremental balances versus chain replay -/

/-- An upsert changes the balance read for the upserted address by the
delta and leaves every other address's balance unchanged. -/
theorem balOf_upsert (acc : Accounts) (a : String) (d : ℚ) (x : String) :
    balOf (upsert acc a d) x = balOf acc x + if a = x then d else 0 := by
  induction acc with
  | nil =>
    by_cases h : a = x <;> simp [upsert, balOf, findBalance, h]
  | cons p rest ih =>
    obtain ⟨pa, pb⟩ := p
    by_cases h1 : pa = a
    · subst h1
      by_cases h2 : pa = x <;> simp [upsert, balOf, findBalance, h2]
    · by_cases h2 : pa = x
      · have h3 : ¬ a = x := fun hh => h1 (h2.trans hh.symm)
        have h4 : ¬ x = a := fun hh => h3 hh.symm
        simp [upsert, balOf, findBalance, h1, h2, h3, h4]
      · simp only [upsert, if_neg h1]
        simp only [balOf, findBalance]
        rw [if_neg h2, if_neg h2]
        exact ih

/-- The per-transaction accounts update of `save_block` moves the read
balance of every address exactly by the spec's replay delta. -/
theorem balOf_applyTx (acc : Accounts) (t : Transaction) (x : String) :
    balOf (applyTxAccounts acc t) x = replayDelta x (balOf acc x) t := by
  unfold applyTxAccounts replayDelta
  by_cases hex : t.sender ≠ "GENESIS" ∧ t.sender ≠ "MINING_REWARD"
  · rw [if_pos hex, balOf_upsert, balOf_upsert]
    obtain ⟨hg, hm⟩ := hex
    by_cases hr : t.recipient = x <;> by_cases hs : t.sender = x
    · have hgx : ¬ x = "GENESIS" := fun hh => hg (hs.trans hh)
      have hmx : ¬ x = "MINING_REWARD" := fun hh => hm (hs.trans hh)
      simp [hr, hs, hgx, hmx]
      try ring
    · simp [hr, hs]
      try ring
    · have hgx : ¬ x = "GENESIS" := fun hh => hg (hs.trans hh)
      have hmx : ¬ x = "MINING_REWARD" := fun hh => hm (hs.trans hh)
      simp [hr, hs, hgx, hmx]
      try ring
    · simp [hr, hs]
  · rw [if_neg hex, balOf_upsert]
    have hcond : ¬(t.sender = x ∧ t.sender ≠ "GENESIS" ∧
        t.sender ≠ "MINING_REWARD") := fun hc => hex hc.2
    by_cases hr : t.recipient = x <;> simp [hr, hcond]

/-- Folding a block's transactions through the accounts table moves every
read balance by the fold of the replay deltas. -/
theorem balOf_foldl_applyTx (txs : List Transaction) (acc : Accounts)
    (x : String) :
    balOf (txs.foldl applyTxAccounts acc) x =
      txs.foldl (replayDelta x) (balOf acc x) := by
  induction txs generalizing acc with
  | nil => rfl
  | cons t ts ih =>
    simp only [List.foldl_cons]
    rw [ih, balOf_applyTx]

/-- Replay over a chain extended by one block folds that block's
transactions on top of the replay over the prefix. -/
theorem replayBalance_append_block (blocks : List Block) (b : Block)
    (x : String) :
    replayBalance (blocks ++ [b]) x =
      b.transactions.foldl (replayDelta x) (replayBalance blocks x) := by
  unfold replayBalance
  rw [List.foldl_append]
  rfl

/-- Lemma: `save_block` preserves the agreement between the persisted balance
and the replay balance. -/
theorem getBalanceDB_saveBlock (db : DBState) (b : Block) (x : String)
    (h : getBalanceDB db x = replayBalance db.blocks x) :
    getBalanceDB (saveBlockDB db b) x =
      replayBalance (saveBlockDB db b).blocks x := by
  unfold getBalanceDB saveBlockDB at *
  dsimp only at h ⊢
  rw [balOf_foldl_applyTx, h, replayBalance_append_block]

/-- A (successful or failed) admission never touches the database. -/
theorem addTransaction_snd_db (C : CryptoModel) (s : ChainState)
    (t : Transaction) : (addTransaction C s t).2.db = s.db := by
  by_cases hv : t.is_valid C = true
  · by_cases hrej : t.sender ≠ "MINING_REWARD" ∧
      s.get_balance t.sender - pendingSpend s.pending t.sender < t.amount
    · simp [addTransaction, hv, hrej]
    · simp [addTransaction, hv, hrej]
  · simp [addTransaction, hv]

/-- A mining call either leaves the database untouched (any failure) or
commits exactly one `save_block`. -/
theorem mine_snd_db_shape (C : CryptoModel) (s : ChainState) (miner : String)
    (rts : ℚ) (rn : String) (bts : ℚ) (fuel : ℕ) (ok : Bool) :
    (minePendingTransactions C s miner rts rn bts fuel ok).2.db = s.db ∨
    ∃ b, (minePendingTransactions C s miner rts rn bts fuel ok).2.db =
      saveBlockDB s.db b := by
  rcases hgl : getLatestBlock C
      { s with pending := s.pending ++ [rewardTx miner s.mining_reward rts rn] }
    with _ | latest
  · left
    simp [minePendingTransactions, hgl]
  · rcases hmb : Block.mine_block C s.difficulty fuel
        (mkBlock C (latest.index + 1)
          (s.pending ++ [rewardTx miner s.mining_reward rts rn]) latest.hash
          bts 0)
      with _ | mined
    · left
      simp [minePendingTransactions, hgl, hmb]
    · cases ok
      · left
        simp [minePendingTransactions, hgl, hmb]
      · right
        exact ⟨mined, by simp [minePendingTransactions, hgl, hmb]⟩

/-- Every single ledger operation preserves the agreement between the
persisted balances and the replay balances. -/
theorem step_preserves_balance_inv (C : CryptoModel) (s : ChainState)
    (op : Op) (h : ∀ x, getBalanceDB s.db x = replayBalance s.db.blocks x) :
    ∀ x, getBalanceDB (step C s op).db x =
      replayBalance (step C s op).db.blocks x := by
  intro x
  cases op with
  | submit t =>
    show getBalanceDB (addTransaction C s t).2.db x =
      replayBalance (addTransaction C s t).2.db.blocks x
    rw [addTransaction_snd_db]
    exact h x
  | mine m rts rn bts fuel ok =>
    show getBalanceDB (minePendingTransactions C s m rts rn bts fuel ok).2.db
        x =
      replayBalance
        (minePendingTransactions C s m rts rn bts fuel ok).2.db.blocks x
    rcases mine_snd_db_shape C s m rts rn bts fuel ok with hdb | ⟨b, hdb⟩
    · rw [hdb]
      exact h x
    · rw [hdb]
      exact getBalanceDB_saveBlock s.db b x (h x)

/-- Running any sequence of operations preserves the agreement between
the persisted balances and the replay balances. -/
theorem run_preserves_balance_inv (C : CryptoModel) (ops : List Op) :
    ∀ s : ChainState,
      (∀ x, getBalanceDB s.db x = replayBalance s.db.blocks x) →
      ∀ x, getBalanceDB (run C s ops).db x =
        replayBalance (run C s ops).db.blocks x := by
  induction ops with
  | nil => exact fun s h => h
  | cons op ops ih =>
    intro s h
    exact ih (step C s op) (step_preserves_balance_inv C s op h)

/-- A freshly constructed ledger (genesis only) satisfies the agreement
between persisted and replay balances. -/
theorem initState_balance_inv (C : CryptoModel) (difficulty : ℕ)
    (reward gTxTs gBlockTs : ℚ) (gNonce : String) :
    ∀ x, getBalanceDB (initState C difficulty reward gTxTs gNonce gBlockTs).db
        x =
      replayBalance
        (initState C difficulty reward gTxTs gNonce gBlockTs).db.blocks x := by
  intro x
  exact getBalanceDB_saveBlock { blocks := [], accounts := [] } _ x rfl

/-- C2: for every state reachable by any sequence of admissions and
mining calls from a freshly constructed ledger, and for every address,
the incrementally maintained persisted balance (the accounts table
updated per transaction by `save_block`) equals the balance obtained by
folding every transaction of every block in chain order, crediting the
recipient and debiting the sender unless the sender is `GENESIS` or
`MINING_REWARD`. -/
theorem persisted_balance_eq_replay (C : CryptoModel) (difficulty : ℕ)
    (reward gTxTs gBlockTs : ℚ) (gNonce : String) (ops : List Op)
    (addr : String) :
    getBalanceDB
        (run C (initState C difficulty reward gTxTs gNonce gBlockTs) ops).db
        addr =
      replayBalance
        (run C (initState C difficulty reward gTxTs gNonce gBlockTs)
            ops).db.blocks
        addr :=
  run_preserves_balance_inv C ops _
    (initState_balance_inv C difficulty reward gTxTs gBlockTs gNonce) addr

/-! ## Absent accounts read as zero -/

/-- A table holding no row for an address yields no row for it. -/
theorem findBalance_eq_none (acc : Accounts) (addr : String)
    (h : ∀ p ∈ acc, p.1 ≠ addr) : findBalance acc addr = none := by
  induction acc with
  | nil => rfl
  | cons p rest ih =>
    obtain ⟨a, b⟩ := p
    have ha : a ≠ addr := h (a, b) (List.mem_cons_self _ _)
    simp only [findBalance, if_neg ha]
    exact ih fun q hq => h q (List.mem_cons_of_mem _ hq)

/-- An upsert only ever creates or touches the row of the upserted
address. -/
theorem fst_mem_upsert (acc : Accounts) (a : String) (d : ℚ)
    (p : String × ℚ) (h : p ∈ upsert acc a d) :
    p.1 = a ∨ p.1 ∈ acc.map Prod.fst := by
  induction acc with
  | nil =>
    simp [upsert] at h
    left
    rw [h]
  | cons q rest ih =>
    obtain ⟨qa, qb⟩ := q
    by_cases h1 : qa = a
    · rw [upsert, if_pos h1] at h
      rcases List.mem_cons.mp h with h2 | h2
      · left
        rw [h2, h1]
      · right
        exact List.mem_cons_of_mem _ (List.mem_map_of_mem _ h2)
    · rw [upsert, if_neg h1] at h
      rcases List.mem_cons.mp h with h2 | h2
      · right
        rw [h2]
        exact List.mem_map_of_mem _ (List.mem_cons_self _ _)
      · rcases ih h2 with h3 | h3
        · left
          exact h3
        · right
          exact List.mem_cons_of_mem _ h3

/-- The accounts rows created by one transaction's update belong to its
sender, its recipient, or were already present. -/
theorem fst_mem_applyTx (acc : Accounts) (t : Transaction) (p : String × ℚ)
    (h : p ∈ applyTxAccounts acc t) :
    p.1 = t.sender ∨ p.1 = t.recipient ∨ p.1 ∈ acc.map Prod.fst := by
  unfold applyTxAccounts at h
  rcases fst_mem_upsert _ _ _ _ h with h1 | h1
  · right
    left
    exact h1
  · by_cases hex : t.sender ≠ "GENESIS" ∧ t.sender ≠ "MINING_REWARD"
    · rw [if_pos hex] at h1
      rcases List.mem_map.mp h1 with ⟨q, hq, hq1⟩
      rcases fst_mem_upsert _ _ _ _ hq with h2 | h2
      · left
        exact hq1 ▸ h2
      · right
        right
        exact hq1 ▸ h2
    · rw [if_neg hex] at h1
      right
      right
      exact h1

/-- The accounts rows after folding a block's transactions belong to an
address already present or mentioned by one of the transactions. -/
theorem fst_mem_foldl_applyTx (txs : List Transaction) :
    ∀ (acc : Accounts) (p : String × ℚ), p ∈ txs.foldl applyTxAccounts acc →
      p.1 ∈ acc.map Prod.fst ∨
        ∃ t ∈ txs, p.1 = t.sender ∨ p.1 = t.recipient := by
  induction txs with
  | nil =>
    intro acc p h
    left
    exact List.mem_map_of_mem _ h
  | cons t ts ih =>
    intro acc p h
    rcases ih (applyTxAccounts acc t) p h with h1 | ⟨u, hu, h1⟩
    · rcases List.mem_map.mp h1 with ⟨q, hq, hq1⟩
      rcases fst_mem_applyTx acc t q hq with h2 | h2 | h2
      · right
        exact ⟨t, List.mem_cons_self _ _, Or.inl (hq1 ▸ h2)⟩
      · right
        exact ⟨t, List.mem_cons_self _ _, Or.inr (hq1 ▸ h2)⟩
      · left
        exact hq1 ▸ h2
    · right
      exact ⟨u, List.mem_cons_of_mem _ hu, h1⟩

/-- Every address with an accounts row is mentioned (as sender or
recipient) by some transaction of some stored block; preserved by
`save_block`. -/
theorem mentioned_saveBlock (db : DBState) (b : Block)
    (h : ∀ p ∈ db.accounts, ∃ blk ∈ db.blocks, ∃ t ∈ blk.transactions,
      t.sender = p.1 ∨ t.recipient = p.1) :
    ∀ p ∈ (saveBlockDB db b).accounts, ∃ blk ∈ (saveBlockDB db b).blocks,
      ∃ t ∈ blk.transactions, t.sender = p.1 ∨ t.recipient = p.1 := by
  intro p hp
  unfold saveBlockDB at hp ⊢
  dsimp only at hp ⊢
  rcases fst_mem_foldl_applyTx b.transactions db.accounts p hp
    with h1 | ⟨t, ht, h1⟩
  · rcases List.mem_map.mp h1 with ⟨q, hq, hq1⟩
    rcases h q hq with ⟨blk, hblk, t, ht, hst⟩
    exact ⟨blk, List.mem_append_left _ hblk, t, ht, hq1 ▸ hst⟩
  · refine ⟨b, List.mem_append_right _ (List.mem_cons_self _ _), t, ht, ?_⟩
    rcases h1 with h1 | h1
    · left
      exact h1.symm
    · right
      exact h1.symm

/-- The mentioned-addresses invariant is preserved by every ledger
operation. -/
theorem step_preserves_mentioned (C : CryptoModel) (s : ChainState) (op : Op)
    (h : ∀ p ∈ s.db.accounts, ∃ blk ∈ s.db.blocks, ∃ t ∈ blk.transactions,
      t.sender = p.1 ∨ t.recipient = p.1) :
    ∀ p ∈ (step C s op).db.accounts, ∃ blk ∈ (step C s op).db.blocks,
      ∃ t ∈ blk.transactions, t.sender = p.1 ∨ t.recipient = p.1 := by
  cases op with
  | submit t =>
    show ∀ p ∈ (addTransaction C s t).2.db.accounts,
      ∃ blk ∈ (addTransaction C s t).2.db.blocks, ∃ u ∈ blk.transactions,
        u.sender = p.1 ∨ u.recipient = p.1
    rw [addTransaction_snd_db]
    exact h
  | mine m rts rn bts fuel ok =>
    show ∀ p ∈ (minePendingTransactions C s m rts rn bts fuel
        ok).2.db.accounts,
      ∃ blk ∈ (minePendingTransactions C s m rts rn bts fuel ok).2.db.blocks,
        ∃ u ∈ blk.transactions, u.sender = p.1 ∨ u.recipient = p.1
    rcases mine_snd_db_shape C s m rts rn bts fuel ok with hdb | ⟨b, hdb⟩
    · rw [hdb]
      exact h
    · rw [hdb]
      exact mentioned_saveBlock s.db b h

/-- The mentioned-addresses invariant holds along every run. -/
theorem run_preserves_mentioned (C : CryptoModel) (ops : List Op) :
    ∀ s : ChainState,
      (∀ p ∈ s.db.accounts, ∃ blk ∈ s.db.blocks, ∃ t ∈ blk.transactions,
        t.sender = p.1 ∨ t.recipient = p.1) →
      ∀ p ∈ (run C s ops).db.accounts, ∃ blk ∈ (run C s ops).db.blocks,
        ∃ t ∈ blk.transactions, t.sender = p.1 ∨ t.recipient = p.1 := by
  induction ops with
  | nil => exact fun s h => h
  | cons op ops ih =>
    intro s h
    exact ih (step C s op) (step_preserves_mentioned C s op h)

/-- C10: on every reachable state, an address that appears in no stored
transaction (neither as sender nor as recipient) has no row in the
accounts table, and `get_balance` returns exactly 0 for it rather than
failing or returning an absent value. -/
theorem getBalance_unseen_address_zero (C : CryptoModel) (difficulty : ℕ)
    (reward gTxTs gBlockTs : ℚ) (gNonce : String) (ops : List Op)
    (addr : String)
    (h : ∀ b ∈ (run C (initState C difficulty reward gTxTs gNonce gBlockTs)
        ops).db.blocks, ∀ t ∈ b.transactions,
      t.sender ≠ addr ∧ t.recipient ≠ addr) :
    findBalance
        (run C (initState C difficulty reward gTxTs gNonce gBlockTs)
          ops).db.accounts addr = none ∧
    getBalanceDB
        (run C (initState C difficulty reward gTxTs gNonce gBlockTs) ops).db
        addr = 0 := by
  have hinit : ∀ p ∈ (initState C difficulty reward gTxTs gNonce
      gBlockTs).db.accounts,
      ∃ blk ∈ (initState C difficulty reward gTxTs gNonce gBlockTs).db.blocks,
        ∃ t ∈ blk.transactions, t.sender = p.1 ∨ t.recipient = p.1 := by
    exact mentioned_saveBlock { blocks := [], accounts := [] } _
      (fun p hp => absurd hp (List.not_mem_nil p))
  have hment := run_preserves_mentioned C ops _ hinit
  have hnone : findBalance
      (run C (initState C difficulty reward gTxTs gNonce gBlockTs)
        ops).db.accounts addr = none := by
    apply findBalance_eq_none
    intro p hp he
    rcases hment p hp with ⟨blk, hblk, t, ht, hst⟩
    rcases hst with h1 | h1
    · exact (h blk hblk t ht).1 (by rw [h1, he])
    · exact (h blk hblk t ht).2 (by rw [h1, he])
  refine ⟨hnone, ?_⟩
  unfold getBalanceDB balOf
  rw [hnone]

/-- Witness for `getBalance_unseen_address_zero`: on a freshly
constructed ledger, an address appearing nowhere has no accounts row and
balance 0. -/
theorem getBalance_unseen_address_zero_witness :
    findBalance
        (run testCrypto (initState testCrypto 0 50 0 "g" 0) []).db.accounts
        "nobody" = none ∧
    getBalanceDB (run testCrypto (initState testCrypto 0 50 0 "g" 0) []).db
        "nobody" = 0 :=
  getBalance_unseen_address_zero testCrypto 0 50 0 0 "g" [] "nobody"
    (by decide)

end Group2Coin
